import Mathlib

/-!
Verification development for the PopPUNK network module
(`PopPUNK/network.py`): graph construction from pairwise
within-strain classifications, incremental extension with query
samples, greedy clique-cover reference selection, and cluster
labelling reconciled against a previous clustering.

Python data is embedded as follows: Python sets become `Finset String`
(iteration over a set is modelled by a fixed deterministic order,
`sortedListOf`); Python dicts become association lists kept in key
insertion order; exceptions become `Except PErr`; the mutable
`networkx` graph becomes an explicit `Graph` record threaded through
the functions.
-/

/-- Errors raised by the Python code: `RuntimeError` in `printClusters`
(no previous clustering and reference printing disabled),
`ZeroDivisionError` in `constructNetwork` on an empty reference list,
`AssertionError` for the merge/exact-match invariant in `printClusters`,
`ValueError` from tuple unpacking of a malformed CSV row (the payload is
the number of fields found, which is all the unpack error reports), and
a failure of the external distance/classification collaborators. -/
inductive PErr where
  | invalidUsage : PErr
  | zeroDivision : PErr
  | assertionFailed : PErr
  | malformedRow : Nat → PErr
  | externalFailure : PErr
deriving DecidableEq, Repr

/-- A cluster identifier as it lives in the Python `clustering` dict:
either an `int` (fresh ids and the no-previous-clustering numbering),
a `str` (ids taken over from the previous clustering, possibly an
underscore-joined composite), or Python's `None` (only reachable on
malformed previous clusterings). -/
inductive ClsId where
  | num : Nat → ClsId
  | str : String → ClsId
  | pyNone : ClsId
deriving DecidableEq, Repr

/-- Rendering of a cluster id by Python's `str()` when writing the CSV. -/
def renderId : ClsId → String
  | .num n => toString n
  | .str s => s
  | .pyNone => "None"

/-- The `networkx.Graph`: node list and edge list, with set semantics
given by membership.  Undirected edges are represented by the ordered
pair in which `add_edge` received them. -/
structure Graph where
  nodes : List String
  edges : List (String × String)
deriving DecidableEq, Repr

/-- Undirected edge membership. -/
def Graph.HasEdge (G : Graph) (a b : String) : Prop :=
  (a, b) ∈ G.edges ∨ (b, a) ∈ G.edges

instance (G : Graph) (a b : String) : Decidable (G.HasEdge a b) :=
  inferInstanceAs (Decidable (_ ∨ _))

theorem Graph.hasEdge_symm (G : Graph) {a b : String} (h : G.HasEdge a b) :
    G.HasEdge b a := h.symm

/-- Strict version of a boolean "less or equal": used by the stable
insertion sort to walk past strictly smaller elements only, so that
elements with equal keys keep their original relative order, exactly
as Python's stable `sorted` does. -/
def bLt (le : α → α → Bool) (y x : α) : Bool := le y x && ! le x y

/-- Insert `x` into `l` before the first element that is not strictly
below `x`. -/
def insertBy (le : α → α → Bool) (x : α) : List α → List α
  | [] => [x]
  | y :: ys => if bLt le y x then y :: insertBy le x ys else x :: y :: ys

/-- Stable insertion sort, modelling Python's stable `sorted`. -/
def insSortBy (le : α → α → Bool) : List α → List α
  | [] => []
  | x :: xs => insertBy le x (insSortBy le xs)

theorem insertBy_perm (le : α → α → Bool) (x : α) :
    ∀ l : List α, List.Perm (insertBy le x l) (x :: l) := by
  intro l
  induction l with
  | nil => simp [insertBy]
  | cons y ys ih =>
    by_cases h : bLt le y x = true
    · simp only [insertBy, h, if_pos]
      exact (List.Perm.cons y ih).trans (List.Perm.swap x y ys)
    · simp only [insertBy, h, if_neg, Bool.not_eq_true]
      simp [h]

theorem insSortBy_perm (le : α → α → Bool) :
    ∀ l : List α, List.Perm (insSortBy le l) l := by
  intro l
  induction l with
  | nil => simp [insSortBy]
  | cons x xs ih =>
    exact (insertBy_perm le x (insSortBy le xs)).trans (List.Perm.cons x ih)

theorem insertBy_pairwise (le : α → α → Bool)
    (htrans : ∀ a b c, le a b = true → le b c = true → le a c = true)
    (htot : ∀ a b, le a b = true ∨ le b a = true) (x : α) :
    ∀ l : List α, l.Pairwise (fun a b => le a b = true) →
      (insertBy le x l).Pairwise (fun a b => le a b = true) := by
  intro l
  induction l with
  | nil => intro _; simp [insertBy]
  | cons y ys ih =>
    intro h
    rw [List.pairwise_cons] at h
    obtain ⟨hy, hys⟩ := h
    by_cases hlt : bLt le y x = true
    · simp only [insertBy, hlt, if_pos]
      rw [List.pairwise_cons]
      constructor
      · intro z hz
        rcases List.mem_cons.mp ((insertBy_perm le x ys).mem_iff.mp hz) with hz | hz
        · subst hz
          exact (Bool.and_eq_true _ _).mp hlt |>.1
        · exact hy z hz
      · exact ih hys
    · simp only [insertBy, hlt, if_neg, Bool.not_eq_true]
      have hxy : le x y = true := by
        rcases htot x y with h' | h'
        · exact h'
        · by_cases hxy' : le x y = true
          · exact hxy'
          · exfalso
            apply hlt
            simp [bLt, h', hxy']
      rw [List.pairwise_cons]
      constructor
      · intro z hz
        rcases List.mem_cons.mp hz with hz | hz
        · subst hz; exact hxy
        · exact htrans x y z hxy (hy z hz)
      · rw [List.pairwise_cons]
        exact ⟨hy, hys⟩

theorem insSortBy_pairwise (le : α → α → Bool)
    (htrans : ∀ a b c, le a b = true → le b c = true → le a c = true)
    (htot : ∀ a b, le a b = true ∨ le b a = true) :
    ∀ l : List α, (insSortBy le l).Pairwise (fun a b => le a b = true) := by
  intro l
  induction l with
  | nil => simp [insSortBy]
  | cons x xs ih => exact insertBy_pairwise le htrans htot x _ ih

/-- Lexicographic comparison of character lists, written structurally
so that it evaluates by kernel reduction. -/
def charListLe : List Char → List Char → Bool
  | [], _ => true
  | _ :: _, [] => false
  | c :: cs, d :: ds =>
    if c < d then true else if d < c then false else charListLe cs ds

theorem charListLe_trans : ∀ a b c, charListLe a b = true → charListLe b c = true →
    charListLe a c = true := by
  intro a
  induction a with
  | nil => intro b c _ _; simp [charListLe]
  | cons x xs ih =>
    intro b c hab hbc
    match b, c with
    | [], _ => simp [charListLe] at hab
    | y :: ys, [] => simp [charListLe] at hbc
    | y :: ys, z :: zs =>
      simp only [charListLe] at hab hbc ⊢
      by_cases hxy : x < y
      · simp only [hxy, if_pos] at hab
        by_cases hyz : y < z
        · simp [lt_trans hxy hyz]
        · by_cases hzy : z < y
          · simp [hyz, hzy] at hbc
          · have : y = z := le_antisymm (not_lt.mp hzy) (not_lt.mp hyz)
            subst this
            simp [hxy]
      · by_cases hyx : y < x
        · simp [hxy, hyx] at hab
        · have hxyeq : x = y := le_antisymm (not_lt.mp hyx) (not_lt.mp hxy)
          subst hxyeq
          simp only [hxy, if_neg, hyx] at hab
          by_cases hxz : x < z
          · simp [hxz]
          · by_cases hzx : z < x
            · simp [hxz, hzx] at hbc
            · have : x = z := le_antisymm (not_lt.mp hzx) (not_lt.mp hxz)
              subst this
              simp only [hxz, if_neg, hzx] at hbc ⊢
              simp only [lt_irrefl, if_neg] at *
              exact ih ys zs hab hbc

theorem charListLe_total : ∀ a b, charListLe a b = true ∨ charListLe b a = true := by
  intro a
  induction a with
  | nil => intro b; left; simp [charListLe]
  | cons x xs ih =>
    intro b
    match b with
    | [] => right; simp [charListLe]
    | y :: ys =>
      simp only [charListLe]
      rcases lt_trichotomy x y with h | h | h
      · left; simp [h]
      · subst h
        simp only [lt_irrefl, if_neg]
        exact ih ys
      · right; simp [h]

theorem charListLe_antisymm : ∀ a b, charListLe a b = true → charListLe b a = true →
    a = b := by
  intro a
  induction a with
  | nil =>
    intro b _ hba
    match b with
    | [] => rfl
    | y :: ys => simp [charListLe] at hba
  | cons x xs ih =>
    intro b hab hba
    match b with
    | [] => simp [charListLe] at hab
    | y :: ys =>
      simp only [charListLe] at hab hba
      by_cases hxy : x < y
      · have : ¬ y < x := lt_asymm hxy
        simp [hxy, this] at hba
      · by_cases hyx : y < x
        · simp [hxy, hyx] at hab
        · have hxyeq : x = y := le_antisymm (not_lt.mp hyx) (not_lt.mp hxy)
          subst hxyeq
          simp only [lt_irrefl, if_neg] at hab hba
          rw [ih ys hab hba]

/-- Boolean string order used as the fixed deterministic iteration
order standing in for Python's (arbitrary but run-deterministic)
set iteration order. -/
def strLe (a b : String) : Bool := charListLe a.toList b.toList

theorem strLe_trans : ∀ a b c, strLe a b = true → strLe b c = true → strLe a c = true :=
  fun a b c hab hbc => charListLe_trans a.toList b.toList c.toList hab hbc

theorem strLe_total : ∀ a b, strLe a b = true ∨ strLe b a = true :=
  fun a b => charListLe_total a.toList b.toList

theorem strLe_antisymm : ∀ a b : String, strLe a b = true → strLe b a = true → a = b := by
  intro a b hab hba
  have h := charListLe_antisymm a.toList b.toList hab hba
  cases a
  cases b
  exact congrArg String.mk (by simpa [String.toList] using h)

theorem insSortBy_eq_of_perm (le : α → α → Bool)
    (htrans : ∀ a b c, le a b = true → le b c = true → le a c = true)
    (htot : ∀ a b, le a b = true ∨ le b a = true)
    (hanti : ∀ a b, le a b = true → le b a = true → a = b)
    {l₁ l₂ : List α} (h : List.Perm l₁ l₂) :
    insSortBy le l₁ = insSortBy le l₂ := by
  have p : List.Perm (insSortBy le l₁) (insSortBy le l₂) :=
    ((insSortBy_perm le l₁).trans h).trans (insSortBy_perm le l₂).symm
  have s₁ := insSortBy_pairwise le htrans htot l₁
  have s₂ := insSortBy_pairwise le htrans htot l₂
  exact @List.eq_of_perm_of_sorted _ (fun a b => le a b = true) ⟨hanti⟩ _ _ p s₁ s₂

theorem insSortBy_strLe_eq_of_perm {l₁ l₂ : List String} (h : List.Perm l₁ l₂) :
    insSortBy strLe l₁ = insSortBy strLe l₂ :=
  insSortBy_eq_of_perm strLe strLe_trans strLe_total strLe_antisymm h

/-- Deterministic list of the elements of a multiset of strings. -/
def msortList (m : Multiset String) : List String :=
  Quotient.liftOn m (fun l => insSortBy strLe l)
    (fun _ _ h => insSortBy_strLe_eq_of_perm h)

/-- Deterministic enumeration of a Python set of sample names
(models `for x in someSet`, `list(someSet)` and the file ordering of
set writes; Python's real order is hash-dependent but fixed within a
run, so any fixed order is a faithful model). -/
def sortedListOf (s : Finset String) : List String := msortList s.val

theorem msortList_mem (m : Multiset String) (v : String) :
    v ∈ msortList m ↔ v ∈ m := by
  induction m using Quotient.inductionOn with
  | h l => simpa [msortList] using (insSortBy_perm strLe l).mem_iff

theorem sortedListOf_mem (s : Finset String) (v : String) :
    v ∈ sortedListOf s ↔ v ∈ s := by
  simpa [sortedListOf] using msortList_mem s.val v

theorem msortList_nodup (m : Multiset String) (h : m.Nodup) :
    (msortList m).Nodup := by
  induction m using Quotient.inductionOn with
  | h l =>
    have : l.Nodup := h
    exact (insSortBy_perm strLe l).nodup_iff.mpr this

theorem sortedListOf_nodup (s : Finset String) : (sortedListOf s).Nodup :=
  msortList_nodup s.val s.nodup

/-! ## readClusters (network.py lines 304-324) -/

/-- Python's `str.rstrip()`: drop trailing whitespace. -/
def pyRstrip (s : String) : String :=
  String.mk ((s.toList.reverse.dropWhile Char.isWhitespace).reverse)

/-- Helper for `pySplitComma`, walking the character list and cutting at
each comma; `cur` holds the current field reversed. -/
def splitCommaAux : List Char → List Char → List String
  | [], cur => [String.mk cur.reverse]
  | c :: rest, cur =>
    if c = ',' then String.mk cur.reverse :: splitCommaAux rest []
    else splitCommaAux rest (c :: cur)

/-- Python's `str.split(",")`: always at least one field, empty fields
kept. -/
def pySplitComma (s : String) : List String := splitCommaAux s.toList []

/-- `clusters[clust_id].add(sample)` on a `defaultdict(set)`, modelled
as an association list in key insertion order (Python dicts preserve
insertion order, and `printClusters` iterates over this dict). -/
def clustersInsert (acc : List (String × Finset String)) (cid sample : String) :
    List (String × Finset String) :=
  if acc.any (fun p => p.1 == cid) then
    acc.map (fun p => if p.1 == cid then (p.1, insert sample p.2) else p)
  else acc ++ [(cid, {sample})]

/-- The row loop of `readClusters`: each line is `rstrip`ped and split
on commas; exactly two fields `(sample, clust_id)` are unpacked, any
other field count raises `ValueError` (carrying only the field count,
as Python's unpack error does). -/
def readClustersRows (acc : List (String × Finset String)) :
    List String → Except PErr (List (String × Finset String))
  | [] => .ok acc
  | line :: rest =>
    match pySplitComma (pyRstrip line) with
    | [sample, cid] => readClustersRows (clustersInsert acc cid sample) rest
    | fs => .error (.malformedRow fs.length)

/-- `readClusters`: skip the header line, then parse each row.  The
file is modelled as its list of lines. -/
def readClusters (lines : List String) : Except PErr (List (String × Finset String)) :=
  readClustersRows [] (lines.drop 1)

/-! ## printClusters (network.py lines 212-302) -/

/-- The scan over `oldClusters.items()` inside `printClusters`
(lines 272-285), with `acc` the nullable `cls_id` accumulator:
a nonempty `join` that is a strict subset of `ref_only` appends the old
cluster's name to the composite id; a `join` equal to `ref_only` first
asserts that no composite id was begun (`assert cls_id == None`,
`AssertionError` otherwise), then adopts the old name and breaks. -/
def findOldId : List (String × Finset String) → Finset String → Option String →
    Except PErr (Option String)
  | [], _, acc => .ok acc
  | (name, members) :: rest, r, acc =>
    let join := r ∩ members
    if 0 < join.card then
      if join.card < r.card then
        match acc with
        | none => findOldId rest r (some name)
        | some s => findOldId rest r (some (s ++ "_" ++ name))
      else if join.card = r.card then
        match acc with
        | none => .ok (some name)
        | some _ => .error .assertionFailed
      else findOldId rest r acc
    else findOldId rest r acc

/-- The body of the per-component loop of `printClusters` when a
previous clustering is present (lines 259-285).  Returns the id chosen
for the component, the updated fresh-id counter, and the new-reference
candidates recorded (`list(newCluster)[0]` for entirely novel
components; the empty-component case of `take 1` is unreachable for
real connected components). -/
def componentId (old : List (String × Finset String)) (oldNames : Finset String)
    (nid : Nat) (comp : Finset String) : Except PErr (ClsId × Nat × List String) :=
  let ref_only := oldNames ∩ comp
  if ref_only.card = 0 then
    .ok (.num nid, nid + 1, (sortedListOf comp).take 1)
  else
    match findOldId old ref_only none with
    | .error e => .error e
    | .ok none => .ok (.pyNone, nid, [])
    | .ok (some s) => .ok (.str s, nid, [])

/-- The whole component loop of `printClusters` with a previous
clustering: thread the fresh-id counter through the components and
collect the `clustering` entries (in Python's dict insertion order)
and the `new_ref_db` list. -/
def assignAll (old : List (String × Finset String)) (oldNames : Finset String) :
    List (Finset String) → Nat → Except PErr (List (String × ClsId) × List String)
  | [], _ => .ok ([], [])
  | c :: rest, nid =>
    match componentId old oldNames nid c with
    | .error e => .error e
    | .ok (cid, nid', refs) =>
      match assignAll old oldNames rest nid' with
      | .error e => .error e
      | .ok (es, rs) =>
        .ok ((sortedListOf c).map (fun v => (v, cid)) ++ es, refs ++ rs)

/-- The component loop of `printClusters` without a previous
clustering: `cls_id = newClsIdx` from `enumerate(newClusters)`. -/
def numberComps : Nat → List (Finset String) → List (String × ClsId)
  | _, [] => []
  | n, c :: rest =>
    (sortedListOf c).map (fun v => (v, ClsId.num n)) ++ numberComps (n + 1) rest

/-- One `clustering[member] = cls_id` on the Python dict: overwrite in
place if the key exists, else append. -/
def dictInsert (d : List (String × ClsId)) (k : String) (v : ClsId) :
    List (String × ClsId) :=
  if d.any (fun p => p.1 == k) then
    d.map (fun p => if p.1 == k then (p.1, v) else p)
  else d ++ [(k, v)]

/-- Replay a sequence of dict stores. -/
def buildDict (entries : List (String × ClsId)) : List (String × ClsId) :=
  entries.foldl (fun d p => dictInsert d p.1 p.2) []

/-- Dict lookup. -/
def dictLookup (d : List (String × ClsId)) (k : String) : Option ClsId :=
  (d.find? (fun p => p.1 == k)).map (fun p => p.2)

/-- Comparison key of the CSV row sort: `operator.itemgetter(0)` on a
sample name string is its first character, so rows are ordered by
first character only (Python would raise on an empty name; here the
empty name sorts first). -/
def firstCharLe (a b : String) : Bool :=
  charListLe (a.toList.take 1) (b.toList.take 1)

/-- Row order of the cluster CSV: first character of the sample name. -/
def entryLe (p q : String × ClsId) : Bool := firstCharLe p.1 q.1

/-- Writing of `<prefix>_clusters.csv` (lines 294-300): header, then
one `member,str(cls_id)` row per dict key in
`sorted(clustering, key=operator.itemgetter(0))` order, keeping only
previously known samples unless `printRef`. -/
def emitCsv (clustering : List (String × ClsId)) (oldNames : Finset String)
    (printRef : Bool) : List String :=
  "Taxon,Cluster" ::
    ((insSortBy entryLe clustering).filter
        (fun p => printRef || decide (p.1 ∈ oldNames))).map
      (fun p => p.1 ++ "," ++ renderId p.2)

/-- Sorting of `nx.connected_components(G)` by descending size
(line 242, `sorted(..., key=len, reverse=True)`, stable). -/
def sortCompsDesc (comps : List (Finset String)) : List (Finset String) :=
  insSortBy (fun a b => decide (b.card ≤ a.card)) comps

/-- Result of `printClusters`: the `clustering` dict, the `new_ref_db`
list, and the CSV file contents as its list of lines. -/
structure PrintResult where
  clustering : List (String × ClsId)
  newRefDb : List String
  csvLines : List String
deriving DecidableEq, Repr

/-- `printClusters` (lines 212-302).  The connected components of the
network are taken as input (the output of `nx.connected_components`,
an external library: a list of disjoint nonempty node sets); the
previous clustering is taken as the CSV file's lines, parsed by
`readClusters` as in the source.  A missing previous clustering with
`printRef = false` raises `RuntimeError`. -/
def printClusters (comps : List (Finset String)) (oldLines : Option (List String))
    (printRef : Bool) : Except PErr PrintResult :=
  if oldLines.isNone && !printRef then .error .invalidUsage
  else
    let sorted := sortCompsDesc comps
    match oldLines with
    | none =>
      let clustering := buildDict (numberComps 0 sorted)
      .ok ⟨clustering, [], emitCsv clustering ∅ printRef⟩
    | some lines =>
      match readClusters lines with
      | .error e => .error e
      | .ok oldClusters =>
        let oldNames := oldClusters.foldl (fun s p => s ∪ p.2) ∅
        match assignAll oldClusters oldNames sorted oldClusters.length with
        | .error e => .error e
        | .ok (entries, newRef) =>
          let clustering := buildDict entries
          .ok ⟨clustering, newRef, emitCsv clustering oldNames printRef⟩

/-! ## constructNetwork (network.py lines 64-113) -/

/-- Modelled from the spec: `iterDistRows(rlist, qlist, self=True)`
(imported from the absent `mash.py`) — "unique pairs over the combined
list enumerated in a fixed row-major upper-triangular order".  The
diagonal is excluded: the GraphBuilder contract states that no
self-loops are ever created, which forces strict upper-triangular
enumeration. -/
def pairsOf : List String → List (String × String)
  | [] => []
  | x :: xs => xs.map (fun y => (x, y)) ++ pairsOf xs

/-- Modelled from the spec: `iterDistRows(rlist, qlist, self=False)` —
the (ref, query) cross-pairs, no self-pairs, in a fixed row-major
order. -/
def crossPairs (rlist : List String) : List String → List (String × String)
  | [] => []
  | q :: qs => rlist.map (fun r => (r, q)) ++ crossPairs rlist qs

/-- Lines 89-92: keep the enumerated pairs whose assignment equals the
within-strain label, consuming assignments in lockstep (`zip`). -/
def withinPairs (assignments : List Nat) (pairs : List (String × String))
    (w : Nat) : List (String × String) :=
  ((assignments.zip pairs).filter (fun p => p.1 == w)).map (fun p => p.2)

/-- `constructNetwork` (lines 64-113): collect within-strain
connections, then compute the density proportion with denominator
`0.5 * len(rlist) * (len(rlist)+1)` — a `ZeroDivisionError` when the
reference list is empty — and only then build the graph:
`add_nodes_from(rlist)` followed by one `add_edge` per connection
(each edge also inserting its endpoints as nodes).  The density/size
warning is a non-fatal stderr write and is not modelled. -/
def constructNetwork (rlist qlist : List String) (assignments : List Nat)
    (within_label : Nat) : Except PErr Graph :=
  let connections := withinPairs assignments (pairsOf (rlist ++ qlist)) within_label
  if rlist.length = 0 then .error .zeroDivision
  else
    .ok ⟨rlist ++ connections.map Prod.fst ++ connections.map Prod.snd, connections⟩

/-! ## addQueryToNetwork (network.py lines 139-209) -/

/-- The queries left unassigned after the direct reference-query pass
(line 178: `set(qlist).difference(assigned)`). -/
def unassignedOf (rlist qlist : List String) (assignments : List Nat)
    (w : Nat) : Finset String :=
  qlist.toFinset \ ((withinPairs assignments (crossPairs rlist qlist) w).map Prod.snd).toFinset

/-- `addQueryToNetwork` (lines 139-209).  Step 1 records an edge for
every within-strain (ref, query) cross-pair.  If more than one query
is unassigned, the external batch pipeline
(`constructDatabase` / `queryDatabase` / `model.assign`, lines
185-196) is invoked on the unassigned set; it is modelled as the
collaborator `batch`, returning the self-comparison name list and its
assignments, from which step 3's within-strain pairs are recorded
(lines 200-202).  Only after that are the query nodes and all recorded
edges committed (lines 208-209); an exception from the batch pipeline
therefore propagates with nothing committed. -/
def addQueryToNetwork (rlist qlist : List String) (G : Graph)
    (assignments : List Nat) (w : Nat)
    (batch : Finset String → Except PErr (List String × List Nat)) :
    Except PErr Graph :=
  let step1 := withinPairs assignments (crossPairs rlist qlist) w
  let unassigned := unassignedOf rlist qlist assignments w
  if 1 < unassigned.card then
    match batch unassigned with
    | .error e => .error e
    | .ok (qlist1, queryAssignation) =>
      let newEdges := step1 ++ withinPairs queryAssignation (pairsOf qlist1) w
      .ok ⟨G.nodes ++ qlist ++ newEdges.map Prod.fst ++ newEdges.map Prod.snd,
           G.edges ++ newEdges⟩
  else
    .ok ⟨G.nodes ++ qlist ++ step1.map Prod.fst ++ step1.map Prod.snd,
         G.edges ++ step1⟩

/-! ## extractReferences (network.py lines 24-62) -/

/-- A maximal clique of the graph: a nonempty list of pairwise adjacent
nodes that no further node of the graph extends. -/
def isMaxCliqueList (G : Graph) (c : List String) : Prop :=
  c ≠ [] ∧ c.Pairwise G.HasEdge ∧ (∀ v ∈ c, v ∈ G.nodes) ∧
    ∀ v ∈ G.nodes, v ∉ c → ¬ (∀ u ∈ c, G.HasEdge u v)

instance (G : Graph) (c : List String) : Decidable (isMaxCliqueList G c) :=
  inferInstanceAs (Decidable (_ ∧ _ ∧ _ ∧ _))

/-- `nx.find_cliques(G)` (an external library function): all maximal
cliques, enumerated deterministically.  Modelled by filtering the
sublists of the deduplicated node list. -/
def findCliquesModel (G : Graph) : List (List String) :=
  G.nodes.dedup.sublists.filter (fun c => decide (isMaxCliqueList G c))

/-- The clique scan of `extractReferences` (lines 47-54): for each
clique in order, if none of its nodes is already a reference, append
the clique's first node. -/
def chooseRefs : List (List String) → List String → List String
  | [], refs => refs
  | c :: rest, refs =>
    if c.any (fun n => refs.contains n) then chooseRefs rest refs
    else chooseRefs rest (refs ++ c.take 1)

/-- `extractReferences` (lines 24-62): enumerate maximal cliques, sort
by descending size (stable), then greedily choose representatives.
The `.refs` file contents are the returned names, one per line. -/
def extractReferences (G : Graph) : List String :=
  chooseRefs (insSortBy (fun a b => decide (b.length ≤ a.length)) (findCliquesModel G)) []

/-! ## Decidability of result comparisons -/

instance {ε α : Type} [DecidableEq ε] [DecidableEq α] : DecidableEq (Except ε α) := fun x y =>
  match x, y with
  | .error a, .error b =>
    if h : a = b then .isTrue (congrArg Except.error h)
    else .isFalse (fun hc => h (Except.error.inj hc))
  | .ok a, .ok b =>
    if h : a = b then .isTrue (congrArg Except.ok h)
    else .isFalse (fun hc => h (Except.ok.inj hc))
  | .error _, .ok _ => .isFalse (fun hc => Except.noConfusion hc)
  | .ok _, .error _ => .isFalse (fun hc => Except.noConfusion hc)

/-! ## Properties of the old-cluster scan (printClusters lines 271-285) -/

/-- One composite-id step: starting an id or appending with an
underscore (lines 277-280). -/
def appendOpt : Option String → String → Option String
  | none, n => some n
  | some s, n => some (s ++ "_" ++ n)

/-- The names of the previous clusters that intersect `r`, in scan
order. -/
def contribNames (old : List (String × Finset String)) (r : Finset String) :
    List String :=
  (old.filter (fun p => decide (0 < (r ∩ p.2).card))).map Prod.fst

/-- Underscore-joined composite identifier. -/
def joinIds : List String → String
  | [] => ""
  | [a] => a
  | a :: b :: t => a ++ "_" ++ joinIds (b :: t)

/-- The `cls_id` accumulator after scanning a list of old clusters,
assuming no exact match occurred. -/
def scanAcc (r : Finset String) (pre : List (String × Finset String))
    (acc : Option String) : Option String :=
  pre.foldl (fun a p => if 0 < (r ∩ p.2).card then appendOpt a p.1 else a) acc

theorem joinIds_glue (a b : String) (t : List String) :
    joinIds ((a ++ "_" ++ b) :: t) = a ++ "_" ++ joinIds (b :: t) := by
  match t with
  | [] => simp [joinIds]
  | c :: t' => simp [joinIds, String.append_assoc]

theorem scanAcc_nil (r : Finset String) (acc : Option String) :
    scanAcc r [] acc = acc := rfl

theorem scanAcc_cons (r : Finset String) (p : String × Finset String)
    (pre : List (String × Finset String)) (acc : Option String) :
    scanAcc r (p :: pre) acc =
      scanAcc r pre (if 0 < (r ∩ p.2).card then appendOpt acc p.1 else acc) := rfl

/-- Scanning a prefix containing no exact match only updates the
accumulator; the scan then continues on the rest of the list. -/
theorem findOldId_append (r : Finset String) (pre rest : List (String × Finset String))
    (hpre : ∀ p ∈ pre, (r ∩ p.2).card < r.card) :
    ∀ acc, findOldId (pre ++ rest) r acc = findOldId rest r (scanAcc r pre acc) := by
  induction pre with
  | nil => intro acc; simp [scanAcc_nil]
  | cons p pre' ih =>
    intro acc
    obtain ⟨name, members⟩ := p
    have hlt : (r ∩ members).card < r.card := hpre ⟨name, members⟩ (List.mem_cons_self _ _)
    have ihrest : ∀ p ∈ pre', (r ∩ p.2).card < r.card :=
      fun q hq => hpre q (List.mem_cons_of_mem _ hq)
    rw [List.cons_append, scanAcc_cons]
    by_cases hpos : 0 < (r ∩ members).card
    · simp only [findOldId, hpos, if_pos, hlt]
      cases acc with
      | none => simpa [appendOpt, hpos] using ih ihrest (some name)
      | some s => simpa [appendOpt, hpos] using ih ihrest (some (s ++ "_" ++ name))
    · simp only [findOldId, hpos, if_neg]
      simpa [hpos] using ih ihrest acc

theorem scanAcc_of_all_empty (r : Finset String) (pre : List (String × Finset String))
    (h : ∀ p ∈ pre, (r ∩ p.2).card = 0) (acc : Option String) :
    scanAcc r pre acc = acc := by
  induction pre with
  | nil => rfl
  | cons p pre' ih =>
    rw [scanAcc_cons]
    have hz : (r ∩ p.2).card = 0 := h p (List.mem_cons_self _ _)
    rw [if_neg (by simp [hz])]
    exact ih (fun q hq => h q (List.mem_cons_of_mem _ hq))

theorem contribNames_cons_pos (r : Finset String) (p : String × Finset String)
    (pre : List (String × Finset String)) (hpos : 0 < (r ∩ p.2).card) :
    contribNames (p :: pre) r = p.1 :: contribNames pre r := by
  simp only [contribNames, List.filter_cons]
  rw [if_pos (decide_eq_true hpos)]
  simp only [List.map_cons]

theorem contribNames_cons_neg (r : Finset String) (p : String × Finset String)
    (pre : List (String × Finset String)) (hpos : ¬ 0 < (r ∩ p.2).card) :
    contribNames (p :: pre) r = contribNames pre r := by
  simp only [contribNames, List.filter_cons]
  rw [if_neg (fun hd => hpos (of_decide_eq_true hd))]

theorem scanAcc_some (r : Finset String) (pre : List (String × Finset String))
    (s : String) : scanAcc r pre (some s) = some (joinIds (s :: contribNames pre r)) := by
  induction pre generalizing s with
  | nil => simp [scanAcc_nil, contribNames, joinIds]
  | cons p pre' ih =>
    rw [scanAcc_cons]
    by_cases hpos : 0 < (r ∩ p.2).card
    · rw [if_pos hpos, contribNames_cons_pos r p pre' hpos, appendOpt,
        ih (s ++ "_" ++ p.1), joinIds_glue]
      simp [joinIds]
    · rw [if_neg hpos, contribNames_cons_neg r p pre' hpos, ih s]

theorem scanAcc_none (r : Finset String) (pre : List (String × Finset String)) :
    scanAcc r pre none =
      (match contribNames pre r with
       | [] => none
       | n :: t => some (joinIds (n :: t))) := by
  induction pre with
  | nil => simp [scanAcc_nil, contribNames]
  | cons p pre' ih =>
    rw [scanAcc_cons]
    by_cases hpos : 0 < (r ∩ p.2).card
    · rw [if_pos hpos, contribNames_cons_pos r p pre' hpos, appendOpt, scanAcc_some]
    · rw [if_neg hpos, contribNames_cons_neg r p pre' hpos, ih]

theorem contribNames_sublength (old : List (String × Finset String)) (r : Finset String)
    (h : 2 ≤ (contribNames old r).length) :
    ∃ p ∈ old, 0 < (r ∩ p.2).card := by
  have hlen : (List.filter (fun p => decide (0 < (r ∩ p.2).card)) old).length =
      (contribNames old r).length := by
    simp only [contribNames, List.length_map]
  have hne : (List.filter (fun p => decide (0 < (r ∩ p.2).card)) old) ≠ [] := by
    intro hnil
    rw [hnil, List.length_nil] at hlen
    omega
  obtain ⟨p, hp⟩ := List.exists_mem_of_ne_nil _ hne
  obtain ⟨hmem, hdec⟩ := List.mem_filter.mp hp
  exact ⟨p, hmem, of_decide_eq_true hdec⟩

theorem pairwise_forall_ne {R : α → α → Prop} (hsym : ∀ a b, R a b → R b a) :
    ∀ {l : List α}, l.Pairwise R → ∀ x ∈ l, ∀ y ∈ l, x ≠ y → R x y := by
  intro l hl
  induction hl with
  | nil =>
    intro x hx
    exact absurd hx (List.not_mem_nil x)
  | @cons a t hhead _ ih =>
    intro x hx y hy hxy
    rcases List.mem_cons.mp hx with hx | hx
    · rcases List.mem_cons.mp hy with hy | hy
      · rw [hx, hy] at hxy
        exact absurd rfl hxy
      · rw [hx]
        exact hhead y hy
    · rcases List.mem_cons.mp hy with hy | hy
      · rw [hy]
        exact hsym _ _ (hhead x hx)
      · exact ih x hx y hy hxy

/-- When the previous clusters are pairwise disjoint (as any previous
clustering that maps each sample to one cluster id is) and at least
two of them intersect `r`, every join `r ∩ P` is a strict subset of
`r`: the scan can never take the exact-match branch. -/
theorem strict_overlap_of_disjoint (old : List (String × Finset String))
    (r : Finset String)
    (hdisjold : old.Pairwise (fun p q => p.2 ∩ q.2 = ∅))
    (h2 : 2 ≤ (contribNames old r).length) :
    ∀ p ∈ old, (r ∩ p.2).card < r.card := by
  have hfpw : (old.filter (fun p => decide (0 < (r ∩ p.2).card))).Pairwise
      (fun p q => p.2 ∩ q.2 = ∅) :=
    List.Pairwise.sublist (List.filter_sublist _) hdisjold
  have hflen : 2 ≤ (old.filter (fun p => decide (0 < (r ∩ p.2).card))).length := by
    have : (old.filter (fun p => decide (0 < (r ∩ p.2).card))).length =
        (contribNames old r).length := by
      simp only [contribNames, List.length_map]
    omega
  match hf : old.filter (fun p => decide (0 < (r ∩ p.2).card)) with
  | [] =>
    rw [hf] at hflen
    simp at hflen
  | [a] =>
    rw [hf] at hflen
    simp at hflen
  | a :: b :: t =>
    rw [hf] at hfpw
    have hab : a.2 ∩ b.2 = ∅ := (List.pairwise_cons.mp hfpw).1 b (List.mem_cons_self _ _)
    have hamem : a ∈ old.filter (fun p => decide (0 < (r ∩ p.2).card)) := by
      rw [hf]
      exact List.mem_cons_self _ _
    have hbmem : b ∈ old.filter (fun p => decide (0 < (r ∩ p.2).card)) := by
      rw [hf]
      exact List.mem_cons_of_mem _ (List.mem_cons_self _ _)
    have hacon : 0 < (r ∩ a.2).card := of_decide_eq_true (List.mem_filter.mp hamem).2
    have hbcon : 0 < (r ∩ b.2).card := of_decide_eq_true (List.mem_filter.mp hbmem).2
    have hrpos : 0 < r.card :=
      lt_of_lt_of_le hacon (Finset.card_le_card Finset.inter_subset_left)
    intro p hpold
    by_cases hp : 0 < (r ∩ p.2).card
    · have hpf : p ∈ old.filter (fun p => decide (0 < (r ∩ p.2).card)) :=
        List.mem_filter.mpr ⟨hpold, decide_eq_true hp⟩
      have hsym : ∀ x y : String × Finset String, x.2 ∩ y.2 = ∅ → y.2 ∩ x.2 = ∅ := by
        intro x y h
        rw [Finset.inter_comm]
        exact h
      have hother : ∃ y : String × Finset String,
          0 < (r ∩ y.2).card ∧ p.2 ∩ y.2 = ∅ := by
        by_cases hpa : p = a
        · refine ⟨b, hbcon, ?_⟩
          rw [hpa]
          exact hab
        · refine ⟨a, hacon, ?_⟩
          rw [← hf] at hfpw
          exact pairwise_forall_ne hsym hfpw p hpf a hamem hpa
      obtain ⟨y, hycon, hpy⟩ := hother
      have hdisj2 : Disjoint (r ∩ p.2) (r ∩ y.2) := by
        rw [Finset.disjoint_left]
        intro x hx1 hx2
        have : x ∈ p.2 ∩ y.2 :=
          Finset.mem_inter.mpr ⟨(Finset.mem_inter.mp hx1).2, (Finset.mem_inter.mp hx2).2⟩
        rw [hpy] at this
        exact absurd this (Finset.not_mem_empty x)
      have hsubr : (r ∩ p.2) ∪ (r ∩ y.2) ⊆ r :=
        Finset.union_subset Finset.inter_subset_left Finset.inter_subset_left
      have hcard : (r ∩ p.2).card + (r ∩ y.2).card ≤ r.card := by
        rw [← Finset.card_union_of_disjoint hdisj2]
        exact Finset.card_le_card hsubr
      omega
    · have : (r ∩ p.2).card = 0 := by omega
      omega

/-- C1: in `printClusters` with a previous clustering whose clusters
are pairwise disjoint, a component whose reference-known members
`ref_only = oldNames ∩ comp` intersect at least two previous clusters
is given the underscore-joined composite of the ids of all previous
clusters whose sample set intersects `ref_only`, in previous-cluster
scan order, with no early stop; the fresh-id counter is untouched and
no new-reference candidate is recorded. -/
theorem printClusters_merge_collects_all_contributors
    (old : List (String × Finset String)) (oldNames : Finset String)
    (nid : Nat) (comp : Finset String)
    (hdisjold : old.Pairwise (fun p q => p.2 ∩ q.2 = ∅))
    (h2 : 2 ≤ (contribNames old (oldNames ∩ comp)).length) :
    componentId old oldNames nid comp =
      .ok (.str (joinIds (contribNames old (oldNames ∩ comp))), nid, []) := by
  have hstrict : ∀ p ∈ old, ((oldNames ∩ comp) ∩ p.2).card < (oldNames ∩ comp).card :=
    strict_overlap_of_disjoint old (oldNames ∩ comp) hdisjold h2
  obtain ⟨p, hpmem, hppos⟩ := contribNames_sublength old (oldNames ∩ comp) h2
  have hrpos : 0 < (oldNames ∩ comp).card :=
    lt_of_lt_of_le hppos (Finset.card_le_card (Finset.inter_subset_left))
  have hscan := findOldId_append (oldNames ∩ comp) old [] hstrict none
  rw [List.append_nil] at hscan
  have hcontrib : ∃ n t, contribNames old (oldNames ∩ comp) = n :: t := by
    match hnames : contribNames old (oldNames ∩ comp) with
    | [] => rw [hnames] at h2; simp at h2
    | n :: t => exact ⟨n, t, rfl⟩
  obtain ⟨n, t, hnt⟩ := hcontrib
  simp only [componentId]
  rw [if_neg (by omega)]
  rw [hscan, scanAcc_none, hnt]
  simp [findOldId]

/-- Witness for C1 at the spec's merge scenario: previous clusters
`A = {s1, s2}` with id `"0"` and `B = {s3}` with id `"1"`; the
component `{s1, s2, s3, q1}` receives the composite id `"0_1"`. -/
theorem printClusters_merge_collects_all_contributors_witness :
    componentId [("0", ({"s1", "s2"} : Finset String)), ("1", {"s3"})]
      ({"s1", "s2", "s3"} : Finset String) 2 ({"s1", "s2", "s3", "q1"} : Finset String) =
      .ok (.str "0_1", 2, []) := by
  have h := printClusters_merge_collects_all_contributors
    [("0", ({"s1", "s2"} : Finset String)), ("1", {"s3"})]
    ({"s1", "s2", "s3"} : Finset String) 2 ({"s1", "s2", "s3", "q1"} : Finset String)
    (by decide) (by decide)
  rw [h]
  decide

/-- C5: in the old-cluster scan of `printClusters`, once a composite
merge id has begun to be built, encountering an exact match
(`join = ref_only`) trips `assert cls_id == None` — an
`AssertionError`, a distinct error from the CSV parse and usage
errors; whereas an exact match found with no prior merge contributor
adopts the previous cluster's id verbatim and stops the scan (the
clusters after it, here arbitrary `post`, are never examined). -/
theorem printClusters_exact_match_assert_or_adopt
    (pre post : List (String × Finset String)) (nE : String) (mE : Finset String)
    (r : Finset String) (h0 : 0 < r.card) (hE : (r ∩ mE).card = r.card)
    (hpre : ∀ p ∈ pre, (r ∩ p.2).card < r.card) :
    ((∃ p ∈ pre, 0 < (r ∩ p.2).card) →
        findOldId (pre ++ (nE, mE) :: post) r none = .error .assertionFailed) ∧
      ((∀ p ∈ pre, (r ∩ p.2).card = 0) →
        findOldId (pre ++ (nE, mE) :: post) r none = .ok (some nE)) := by
  have hscan := findOldId_append r pre ((nE, mE) :: post) hpre none
  constructor
  · intro hex
    have hsome : ∃ s, scanAcc r pre none = some s := by
      rw [scanAcc_none]
      obtain ⟨p, hpmem, hppos⟩ := hex
      have hmemf : p ∈ List.filter (fun q => decide (0 < (r ∩ q.2).card)) pre :=
        List.mem_filter.mpr ⟨hpmem, decide_eq_true hppos⟩
      have hcne : contribNames pre r ≠ [] := by
        intro hnil
        have hlen := congrArg List.length hnil
        simp only [contribNames, List.length_map, List.length_nil] at hlen
        rw [List.length_eq_zero] at hlen
        rw [hlen] at hmemf
        exact absurd hmemf (List.not_mem_nil p)
      match hnames : contribNames pre r with
      | [] => exact absurd hnames hcne
      | n :: t => exact ⟨joinIds (n :: t), rfl⟩
    obtain ⟨s, hs⟩ := hsome
    rw [hscan, hs]
    simp only [findOldId]
    rw [if_pos (by omega), if_neg (by omega), if_pos hE]
  · intro hall
    rw [hscan, scanAcc_of_all_empty r pre hall]
    simp only [findOldId]
    rw [if_pos (by omega), if_neg (by omega), if_pos hE]

/-- Witness for C5: (a) previous clusters `[("0", {a}), ("1", {a, b})]`
against `ref_only = {a, b}`: the scan first records `"0"` as a merge
contributor, then hits the exact match `("1", {a, b})` and fails the
assertion; (b) previous clusters `[("9", {z}), ("1", {a, b}),
("2", {a, b})]`: the exact match at `"1"` is adopted verbatim and the
scan stops before the (would-be-asserting) cluster `"2"`. -/
theorem printClusters_exact_match_assert_or_adopt_witness :
    (findOldId [("0", ({"a"} : Finset String)), ("1", {"a", "b"})]
        ({"a", "b"} : Finset String) none = .error .assertionFailed) ∧
      (findOldId [("9", ({"z"} : Finset String)), ("1", {"a", "b"}), ("2", {"a", "b"})]
        ({"a", "b"} : Finset String) none = .ok (some "1")) := by
  constructor
  · exact (printClusters_exact_match_assert_or_adopt
      [("0", ({"a"} : Finset String))] [] "1" ({"a", "b"} : Finset String)
      ({"a", "b"} : Finset String) (by decide) (by decide) (by decide)).1 (by decide)
  · exact (printClusters_exact_match_assert_or_adopt
      [("9", ({"z"} : Finset String))] [("2", ({"a", "b"} : Finset String))] "1"
      ({"a", "b"} : Finset String) ({"a", "b"} : Finset String)
      (by decide) (by decide) (by decide)).2 (by decide)

/-- C10: `constructNetwork` on an empty reference list divides by zero
in the density computation (`0.5 * (len(rlist) * (len(rlist)+1))` is
zero) and fails before any graph is built, for every query list and
assignment sequence. -/
theorem constructNetwork_empty_rlist_fails (qlist : List String)
    (assignments : List Nat) (w : Nat) :
    constructNetwork [] qlist assignments w = .error .zeroDivision := by
  simp [constructNetwork]

/-- C4 counterexample: with `rlist = ["a"]`, `qlist = ["b"]` and no
within-strain assignment, the only node of the returned graph is
`"a"`: the isolated query sample `"b"` is not a node, because
`constructNetwork` only ever calls `add_nodes_from(rlist)` and edge
insertion.  This refutes the claim that every sample of Q is a node
even with zero incident edges. -/
theorem constructNetwork_isolated_query_counterexample :
    constructNetwork ["a"] ["b"] [0] 1 = .ok (Graph.mk ["a"] []) ∧
      "b" ∉ (Graph.mk ["a"] []).nodes := by
  decide

/-- C4 (amended): for a nonempty reference list, `constructNetwork`
succeeds and returns a graph whose nodes contain every reference
sample (even isolated ones), whose edges are exactly the enumerated
pairs assigned the within-strain label, and whose nodes are exactly
the reference samples together with the endpoints of those edges —
so a query sample is a node only if it lies in R or on a
within-strain edge. -/
theorem constructNetwork_nodes_edges (rlist qlist : List String)
    (assignments : List Nat) (w : Nat) (hne : rlist ≠ []) :
    ∃ g, constructNetwork rlist qlist assignments w = .ok g ∧
      (∀ x ∈ rlist, x ∈ g.nodes) ∧
      (∀ a b, g.HasEdge a b ↔
        ((a, b) ∈ withinPairs assignments (pairsOf (rlist ++ qlist)) w ∨
          (b, a) ∈ withinPairs assignments (pairsOf (rlist ++ qlist)) w)) ∧
      (∀ v, v ∈ g.nodes ↔ (v ∈ rlist ∨ ∃ u, g.HasEdge u v)) := by
  refine ⟨⟨rlist ++ (withinPairs assignments (pairsOf (rlist ++ qlist)) w).map Prod.fst
      ++ (withinPairs assignments (pairsOf (rlist ++ qlist)) w).map Prod.snd,
      withinPairs assignments (pairsOf (rlist ++ qlist)) w⟩, ?_, ?_, ?_, ?_⟩
  · simp only [constructNetwork]
    rw [if_neg (by simpa [List.length_eq_zero] using hne)]
  · intro x hx
    simp [hx]
  · intro a b
    exact Iff.rfl
  · intro v
    simp only [List.mem_append, List.mem_map, Graph.HasEdge]
    constructor
    · rintro ((hv | ⟨⟨a, b⟩, he, hfst⟩) | ⟨⟨a, b⟩, he, hsnd⟩)
      · exact Or.inl hv
      · cases hfst
        exact Or.inr ⟨b, Or.inr he⟩
      · cases hsnd
        exact Or.inr ⟨a, Or.inl he⟩
    · rintro (hv | ⟨u, hu | hu⟩)
      · exact Or.inl (Or.inl hv)
      · exact Or.inr ⟨(u, v), hu, rfl⟩
      · exact Or.inl (Or.inr ⟨(v, u), hu, rfl⟩)

/-- Witness for the amended C4 at a concrete nonempty reference
list. -/
theorem constructNetwork_nodes_edges_witness :
    ∃ g, constructNetwork ["a"] [] [] 0 = .ok g ∧
      (∀ x ∈ ["a"], x ∈ g.nodes) ∧
      (∀ a b, g.HasEdge a b ↔
        ((a, b) ∈ withinPairs [] (pairsOf (["a"] ++ [])) 0 ∨
          (b, a) ∈ withinPairs [] (pairsOf (["a"] ++ [])) 0)) ∧
      (∀ v, v ∈ g.nodes ↔ (v ∈ ["a"] ∨ ∃ u, g.HasEdge u v)) :=
  constructNetwork_nodes_edges ["a"] [] [] 0 (by decide)

/-- C3 counterexample: reference `r1`, queries `q1, q2, q3`, with the
(r1, q1) cross-pair classified within-strain.  Step 1 records the edge
(r1, q1) (second conjunct).  Two queries remain unassigned, so the
batch pipeline runs; when it fails, `addQueryToNetwork` returns only
the error — the network update on lines 208-209 is never reached, so
the step-1 edge and the query nodes are NOT committed (first
conjunct), refuting the claim that step 1's edges survive a step-3
failure.  With a succeeding batch the same inputs do commit the
step-1 edge (third conjunct). -/
theorem addQueryToNetwork_failure_counterexample :
    addQueryToNetwork ["r1"] ["q1", "q2", "q3"] (Graph.mk ["r1"] []) [1, 0, 0] 1
        (fun _ => .error .externalFailure) = .error .externalFailure ∧
      withinPairs [1, 0, 0] (crossPairs ["r1"] ["q1", "q2", "q3"]) 1 = [("r1", "q1")] ∧
      addQueryToNetwork ["r1"] ["q1", "q2", "q3"] (Graph.mk ["r1"] []) [1, 0, 0] 1
        (fun _ => .ok ([], [])) =
        .ok (Graph.mk ["r1", "q1", "q2", "q3", "r1", "q1"] [("r1", "q1")]) := by
  decide

/-- C3 (amended): if more than one query is unassigned after step 1
and the batch distance/classification pipeline fails, the whole of
`addQueryToNetwork` fails with that error: the final network update
is never executed, so neither step 3's nor step 1's edges nor the
query nodes are committed and the network is left unchanged. -/
theorem addQueryToNetwork_batch_failure_aborts (rlist qlist : List String)
    (G : Graph) (assignments : List Nat) (w : Nat)
    (batch : Finset String → Except PErr (List String × List Nat)) (e : PErr)
    (h1 : 1 < (unassignedOf rlist qlist assignments w).card)
    (h2 : batch (unassignedOf rlist qlist assignments w) = .error e) :
    addQueryToNetwork rlist qlist G assignments w batch = .error e := by
  simp only [addQueryToNetwork]
  rw [if_pos h1, h2]

/-- Witness for the amended C3 at the counterexample's inputs. -/
theorem addQueryToNetwork_batch_failure_aborts_witness :
    addQueryToNetwork ["r1"] ["q1", "q2", "q3"] (Graph.mk ["r1"] []) [1, 0, 0] 1
      (fun _ => .error .externalFailure) = .error .externalFailure :=
  addQueryToNetwork_batch_failure_aborts ["r1"] ["q1", "q2", "q3"]
    (Graph.mk ["r1"] []) [1, 0, 0] 1 (fun _ => .error .externalFailure)
    .externalFailure (by decide) rfl

/-! ## Dict and numbering lemmas for printClusters without a previous
clustering -/

/-- Keys of the modelled Python dict. -/
def dKeys (d : List (String × ClsId)) : List String := d.map Prod.fst

theorem dictInsert_of_not_mem (d : List (String × ClsId)) (k : String) (v : ClsId)
    (h : k ∉ dKeys d) : dictInsert d k v = d ++ [(k, v)] := by
  have hany : d.any (fun p => p.1 == k) = false := by
    rw [List.any_eq_false]
    intro p hp
    intro hpk
    exact h (List.mem_map.mpr ⟨p, hp, eq_of_beq hpk⟩)
  simp [dictInsert, hany]

theorem foldl_dictInsert_nodup :
    ∀ (entries acc : List (String × ClsId)), (dKeys acc ++ dKeys entries).Nodup →
      entries.foldl (fun d p => dictInsert d p.1 p.2) acc = acc ++ entries := by
  intro entries
  induction entries with
  | nil => intro acc _; simp
  | cons e es ih =>
    intro acc hnd
    have hknotin : e.1 ∉ dKeys acc := by
      intro hin
      have : (dKeys acc).Disjoint (dKeys (e :: es)) :=
        (List.nodup_append.mp hnd).2.2
      exact this hin (by simp [dKeys])
    have hstep : dictInsert acc e.1 e.2 = acc ++ [e] := by
      rw [dictInsert_of_not_mem acc e.1 e.2 hknotin]
    have hnd' : (dKeys (acc ++ [e]) ++ dKeys es).Nodup := by
      have heq : dKeys (acc ++ [e]) ++ dKeys es = dKeys acc ++ dKeys (e :: es) := by
        simp [dKeys, List.append_assoc]
      rw [heq]
      exact hnd
    rw [List.foldl_cons, hstep, ih (acc ++ [e]) hnd', List.append_assoc,
      List.singleton_append]

theorem buildDict_of_nodup_keys (entries : List (String × ClsId))
    (h : (dKeys entries).Nodup) : buildDict entries = entries := by
  have := foldl_dictInsert_nodup entries [] (by simpa [dKeys] using h)
  simpa [buildDict] using this

theorem dKeys_numberComps_mem (l : List (Finset String)) (n : Nat) (v : String) :
    v ∈ dKeys (numberComps n l) ↔ ∃ c ∈ l, v ∈ c := by
  induction l generalizing n with
  | nil => simp [numberComps, dKeys]
  | cons c rest ih =>
    simp only [numberComps, dKeys, List.map_append, List.mem_append, List.map_map]
    constructor
    · rintro (hv | hv)
      · refine ⟨c, List.mem_cons_self _ _, ?_⟩
        simp only [List.mem_map, Function.comp] at hv
        obtain ⟨x, hx, hxv⟩ := hv
        rw [← hxv]
        exact (sortedListOf_mem c x).mp hx
      · obtain ⟨c', hc', hvc'⟩ := (ih (n + 1)).mp (by simpa [dKeys] using hv)
        exact ⟨c', List.mem_cons_of_mem _ hc', hvc'⟩
    · rintro ⟨c', hc', hvc'⟩
      rcases List.mem_cons.mp hc' with hc' | hc'
      · subst hc'
        left
        simp only [List.mem_map, Function.comp]
        exact ⟨v, (sortedListOf_mem c' v).mpr hvc', rfl⟩
      · right
        simpa [dKeys] using (ih (n + 1)).mpr ⟨c', hc', hvc'⟩

theorem dKeys_numberComps_nodup (l : List (Finset String)) (n : Nat)
    (hdisj : l.Pairwise (fun a b => a ∩ b = ∅)) :
    (dKeys (numberComps n l)).Nodup := by
  induction l generalizing n with
  | nil => simp [numberComps, dKeys]
  | cons c rest ih =>
    rw [List.pairwise_cons] at hdisj
    obtain ⟨hc, hrest⟩ := hdisj
    simp only [numberComps, dKeys, List.map_append, List.map_map]
    rw [List.nodup_append]
    refine ⟨?_, ?_, ?_⟩
    · have hfun : (Prod.fst ∘ fun v : String => (v, ClsId.num n)) = id := by
        funext x
        rfl
      rw [hfun, List.map_id]
      exact sortedListOf_nodup c
    · simpa [dKeys] using ih (n + 1) hrest
    · intro v hv hv'
      simp only [List.mem_map, Function.comp] at hv
      obtain ⟨x, hx, hxv⟩ := hv
      have hvc : v ∈ c := by
        rw [← hxv]
        exact (sortedListOf_mem c x).mp hx
      obtain ⟨c', hc', hvc'⟩ := (dKeys_numberComps_mem rest (n + 1) v).mp
        (by simpa [dKeys] using hv')
      have hempty := hc c' hc'
      have : v ∈ c ∩ c' := Finset.mem_inter.mpr ⟨hvc, hvc'⟩
      rw [hempty] at this
      exact absurd this (Finset.not_mem_empty v)

theorem find?_map_pair_of_mem (l : List String) (v : String) (cid : ClsId)
    (hv : v ∈ l) :
    (l.map (fun x => (x, cid))).find? (fun p => p.1 == v) = some (v, cid) := by
  induction l with
  | nil => exact absurd hv (List.not_mem_nil v)
  | cons x xs ih =>
    by_cases hx : x = v
    · subst hx
      simp only [List.map_cons]
      exact List.find?_cons_of_pos _ (by simp)
    · have hvx : v ∈ xs := by
        rcases List.mem_cons.mp hv with h | h
        · exact absurd h.symm hx
        · exact h
      simp only [List.map_cons]
      rw [List.find?_cons_of_neg _ (by simpa using hx)]
      exact ih hvx

theorem find?_map_pair_of_not_mem (l : List String) (v : String) (cid : ClsId)
    (hv : v ∉ l) :
    (l.map (fun x => (x, cid))).find? (fun p => p.1 == v) = none := by
  induction l with
  | nil => simp
  | cons x xs ih =>
    have hx : x ≠ v := fun h => hv (h ▸ List.mem_cons_self x xs)
    simp only [List.map_cons]
    rw [List.find?_cons_of_neg _ (by simpa using hx)]
    exact ih (fun h => hv (List.mem_cons_of_mem x h))

theorem find?_append_of_none {p : α → Bool} {l₁ l₂ : List α}
    (h : l₁.find? p = none) : (l₁ ++ l₂).find? p = l₂.find? p := by
  induction l₁ with
  | nil => simp
  | cons x xs ih =>
    by_cases hx : p x = true
    · rw [List.find?_cons_of_pos _ hx] at h
      exact absurd h (by simp)
    · rw [List.find?_cons_of_neg _ hx] at h
      rw [List.cons_append, List.find?_cons_of_neg _ hx]
      exact ih h

theorem find?_append_of_some {p : α → Bool} {l₁ l₂ : List α} {a : α}
    (h : l₁.find? p = some a) : (l₁ ++ l₂).find? p = some a := by
  induction l₁ with
  | nil => simp at h
  | cons x xs ih =>
    by_cases hx : p x = true
    · rw [List.find?_cons_of_pos _ hx] at h
      rw [List.cons_append, List.find?_cons_of_pos _ hx]
      exact h
    · rw [List.find?_cons_of_neg _ hx] at h
      rw [List.cons_append, List.find?_cons_of_neg _ hx]
      exact ih h

theorem numberComps_find (l : List (Finset String))
    (hdisj : l.Pairwise (fun a b => a ∩ b = ∅)) (n i : Nat)
    (hi : i < l.length) (v : String) (hv : v ∈ l.get ⟨i, hi⟩) :
    (numberComps n l).find? (fun p => p.1 == v) = some (v, .num (n + i)) := by
  induction l generalizing n i with
  | nil => simp at hi
  | cons c rest ih =>
    rw [List.pairwise_cons] at hdisj
    obtain ⟨hc, hrest⟩ := hdisj
    match i with
    | 0 =>
      have hvc : v ∈ c := hv
      simp only [numberComps]
      rw [find?_append_of_some
        (find?_map_pair_of_mem (sortedListOf c) v (ClsId.num n)
          ((sortedListOf_mem c v).mpr hvc))]
      simp
    | i + 1 =>
      have hi' : i < rest.length := by simpa using hi
      have hvrest : v ∈ rest.get ⟨i, hi'⟩ := hv
      have hvnotc : v ∉ c := by
        intro hvc
        have hmem : rest.get ⟨i, hi'⟩ ∈ rest := List.get_mem rest i hi'
        have hempty := hc _ hmem
        have : v ∈ c ∩ rest.get ⟨i, hi'⟩ := Finset.mem_inter.mpr ⟨hvc, hvrest⟩
        rw [hempty] at this
        exact absurd this (Finset.not_mem_empty v)
      simp only [numberComps]
      rw [find?_append_of_none
        (find?_map_pair_of_not_mem (sortedListOf c) v (ClsId.num n)
          (fun h => hvnotc ((sortedListOf_mem c v).mp h)))]
      have hrec := ih hrest (n + 1) i hi' hvrest
      have harith : n + 1 + i = n + (i + 1) := by omega
      rw [harith] at hrec
      exact hrec

theorem numberComps_mem_shape (l : List (Finset String)) (n : Nat) :
    ∀ p ∈ numberComps n l, ∃ i, ∃ hi : i < l.length,
      p.2 = ClsId.num (n + i) ∧ p.1 ∈ l.get ⟨i, hi⟩ := by
  induction l generalizing n with
  | nil => simp [numberComps]
  | cons c rest ih =>
    intro p hp
    simp only [numberComps, List.mem_append] at hp
    rcases hp with hp | hp
    · obtain ⟨x, hx, hxp⟩ := List.mem_map.mp hp
      refine ⟨0, by simp, ?_, ?_⟩
      · rw [← hxp]
        simp
      · rw [← hxp]
        exact (sortedListOf_mem c x).mp hx
    · obtain ⟨i, hi, hid, hmem⟩ := ih (n + 1) p hp
      refine ⟨i + 1, by simpa using hi, ?_, hmem⟩
      rw [hid]
      congr 1
      omega

theorem sortCompsDesc_perm (comps : List (Finset String)) :
    List.Perm (sortCompsDesc comps) comps :=
  insSortBy_perm _ comps

theorem sortCompsDesc_sorted (comps : List (Finset String)) :
    (sortCompsDesc comps).Pairwise (fun a b => b.card ≤ a.card) := by
  have h := insSortBy_pairwise (fun a b : Finset String => decide (b.card ≤ a.card))
    (fun a b c hab hbc => decide_eq_true
      (le_trans (of_decide_eq_true hbc) (of_decide_eq_true hab)))
    (fun a b => by
      rcases le_total b.card a.card with h | h
      · exact Or.inl (decide_eq_true h)
      · exact Or.inr (decide_eq_true h)) comps
  exact h.imp (fun hab => of_decide_eq_true hab)

theorem sortCompsDesc_disjoint (comps : List (Finset String))
    (hdisj : comps.Pairwise (fun a b => a ∩ b = ∅)) :
    (sortCompsDesc comps).Pairwise (fun a b => a ∩ b = ∅) := by
  refine (List.Perm.pairwise_iff ?_ (sortCompsDesc_perm comps)).mpr hdisj
  intro a b h
  rw [Finset.inter_comm]
  exact h

/-- The value `printClusters` returns when no previous clustering is
given (and reference printing is on). -/
theorem printClusters_none_eq (comps : List (Finset String)) :
    printClusters comps none true =
      .ok ⟨buildDict (numberComps 0 (sortCompsDesc comps)), [],
        emitCsv (buildDict (numberComps 0 (sortCompsDesc comps))) ∅ true⟩ := rfl

/-- Lookup in the clustering built without a previous clustering:
a member of the `i`-th component (in descending-size order) is mapped
to the integer id `i`. -/
theorem printClusters_none_lookup (comps : List (Finset String))
    (hdisj : comps.Pairwise (fun a b => a ∩ b = ∅)) (i : Nat)
    (hi : i < (sortCompsDesc comps).length) (v : String)
    (hv : v ∈ (sortCompsDesc comps).get ⟨i, hi⟩) :
    dictLookup (buildDict (numberComps 0 (sortCompsDesc comps))) v =
      some (ClsId.num i) := by
  have hdisj' := sortCompsDesc_disjoint comps hdisj
  rw [buildDict_of_nodup_keys _ (dKeys_numberComps_nodup _ 0 hdisj')]
  rw [dictLookup, numberComps_find _ hdisj' 0 i hi v hv]
  simp

/-- C6: without a previous clustering, `printClusters` (for disjoint
nonempty components, as `nx.connected_components` yields) assigns to
the members of the `i`-th component — components sorted by descending
size, ties kept in a fixed deterministic order — the integer id `i`;
the set of assigned ids is exactly `0 .. k-1` for `k` components, and
the lookup is a function, so every node receives exactly one id. -/
theorem printClusters_ids_are_size_ranks (comps : List (Finset String))
    (hdisj : comps.Pairwise (fun a b => a ∩ b = ∅))
    (hne : ∀ c ∈ comps, c ≠ ∅) :
    ∃ r, printClusters comps none true = .ok r ∧
      List.Perm (sortCompsDesc comps) comps ∧
      (sortCompsDesc comps).Pairwise (fun a b => b.card ≤ a.card) ∧
      (∀ i, ∀ hi : i < (sortCompsDesc comps).length,
        ∀ v ∈ (sortCompsDesc comps).get ⟨i, hi⟩,
          dictLookup r.clustering v = some (ClsId.num i)) ∧
      (∀ v cid, dictLookup r.clustering v = some cid →
        ∃ i, ∃ hi : i < (sortCompsDesc comps).length,
          cid = ClsId.num i ∧ v ∈ (sortCompsDesc comps).get ⟨i, hi⟩) ∧
      (∀ i, i < (sortCompsDesc comps).length →
        ∃ v, dictLookup r.clustering v = some (ClsId.num i)) := by
  have hdisj' := sortCompsDesc_disjoint comps hdisj
  have hbd : buildDict (numberComps 0 (sortCompsDesc comps)) =
      numberComps 0 (sortCompsDesc comps) :=
    buildDict_of_nodup_keys _ (dKeys_numberComps_nodup _ 0 hdisj')
  refine ⟨_, printClusters_none_eq comps, sortCompsDesc_perm comps,
    sortCompsDesc_sorted comps, ?_, ?_, ?_⟩
  · intro i hi v hv
    exact printClusters_none_lookup comps hdisj i hi v hv
  · intro v cid hl
    rw [dictLookup, hbd] at hl
    cases hfind : (numberComps 0 (sortCompsDesc comps)).find? (fun p => p.1 == v) with
    | none =>
      rw [hfind] at hl
      simp at hl
    | some p =>
      rw [hfind] at hl
      simp at hl
      have hpmem := List.mem_of_find?_eq_some hfind
      have hppred := List.find?_some hfind
      obtain ⟨i, hi, hid, hmem⟩ := numberComps_mem_shape _ 0 p hpmem
      refine ⟨i, hi, ?_, ?_⟩
      · rw [← hl, hid]
        simp
      · rw [← eq_of_beq hppred]
        exact hmem
  · intro i hi
    have hgmem := List.get_mem (sortCompsDesc comps) i hi
    have hgne : (sortCompsDesc comps).get ⟨i, hi⟩ ≠ ∅ :=
      hne _ ((sortCompsDesc_perm comps).mem_iff.mp hgmem)
    obtain ⟨v, hv⟩ := Finset.nonempty_iff_ne_empty.mpr hgne
    exact ⟨v, printClusters_none_lookup comps hdisj i hi v hv⟩

/-- Witness for C6 at the components `{a, b}` and `{c}`. -/
theorem printClusters_ids_are_size_ranks_witness :
    ∃ r, printClusters [({"a", "b"} : Finset String), {"c"}] none true = .ok r ∧
      List.Perm (sortCompsDesc [({"a", "b"} : Finset String), {"c"}])
        [({"a", "b"} : Finset String), {"c"}] ∧
      (sortCompsDesc [({"a", "b"} : Finset String), {"c"}]).Pairwise
        (fun a b => b.card ≤ a.card) ∧
      (∀ i, ∀ hi : i < (sortCompsDesc [({"a", "b"} : Finset String), {"c"}]).length,
        ∀ v ∈ (sortCompsDesc [({"a", "b"} : Finset String), {"c"}]).get ⟨i, hi⟩,
          dictLookup r.clustering v = some (ClsId.num i)) ∧
      (∀ v cid, dictLookup r.clustering v = some cid →
        ∃ i, ∃ hi : i < (sortCompsDesc [({"a", "b"} : Finset String), {"c"}]).length,
          cid = ClsId.num i ∧
            v ∈ (sortCompsDesc [({"a", "b"} : Finset String), {"c"}]).get ⟨i, hi⟩) ∧
      (∀ i, i < (sortCompsDesc [({"a", "b"} : Finset String), {"c"}]).length →
        ∃ v, dictLookup r.clustering v = some (ClsId.num i)) :=
  printClusters_ids_are_size_ranks [({"a", "b"} : Finset String), {"c"}]
    (by decide) (by decide)

/-- C2 counterexample: the previous clustering has a single cluster
`"A" = {s1, s2}`, and the new network `⟨[s1, q1, s2], [(s1, q1)]⟩`
splits it into the two disjoint connected components `{s1, q1}` and
`{s2}` (they partition the nodes, are edge-closed, and are disjoint —
first three conjuncts).  Both components receive the same identifier
`"A"` (fourth conjunct, with `s1` in the first component and `s2` in
the second), refuting the claim that no two disjoint clusters of one
run share an identifier. -/
theorem printClusters_split_shares_id_counterexample :
    (({"s1", "q1"} : Finset String) ∩ {"s2"} = ∅) ∧
      (∀ v ∈ (Graph.mk ["s1", "q1", "s2"] [("s1", "q1")]).nodes,
        v ∈ ({"s1", "q1"} : Finset String) ∨ v ∈ ({"s2"} : Finset String)) ∧
      (∀ e ∈ (Graph.mk ["s1", "q1", "s2"] [("s1", "q1")]).edges,
        (e.1 ∈ ({"s1", "q1"} : Finset String) ↔ e.2 ∈ ({"s1", "q1"} : Finset String)) ∧
          (e.1 ∈ ({"s2"} : Finset String) ↔ e.2 ∈ ({"s2"} : Finset String))) ∧
      ((printClusters [({"s1", "q1"} : Finset String), {"s2"}]
          (some ["Taxon,Cluster", "s1,A", "s2,A"]) true).map
        (fun r => (dictLookup r.clustering "s1", dictLookup r.clustering "s2")) =
          .ok (some (.str "A"), some (.str "A"))) ∧
      ("s1" ∈ ({"s1", "q1"} : Finset String)) ∧ ("s2" ∈ ({"s2"} : Finset String)) := by
  decide

/-- C2 (amended): without a previous clustering the invariant does
hold — members of distinct (disjoint) components always receive
distinct integer ids. -/
theorem printClusters_distinct_components_distinct_ids
    (comps : List (Finset String))
    (hdisj : comps.Pairwise (fun a b => a ∩ b = ∅)) :
    ∃ r, printClusters comps none true = .ok r ∧
      ∀ i j, ∀ hi : i < (sortCompsDesc comps).length,
        ∀ hj : j < (sortCompsDesc comps).length, i ≠ j →
          ∀ v ∈ (sortCompsDesc comps).get ⟨i, hi⟩,
            ∀ u ∈ (sortCompsDesc comps).get ⟨j, hj⟩,
              dictLookup r.clustering v ≠ dictLookup r.clustering u := by
  refine ⟨_, printClusters_none_eq comps, ?_⟩
  intro i j hi hj hij v hv u hu
  rw [printClusters_none_lookup comps hdisj i hi v hv,
    printClusters_none_lookup comps hdisj j hj u hu]
  intro hcon
  exact hij (ClsId.num.inj (Option.some.inj hcon))

/-- Witness for the amended C2 at the components `{a, b}` and `{c}`. -/
theorem printClusters_distinct_components_distinct_ids_witness :
    ∃ r, printClusters [({"a", "b"} : Finset String), {"c"}] none true = .ok r ∧
      ∀ i j, ∀ hi : i < (sortCompsDesc [({"a", "b"} : Finset String), {"c"}]).length,
        ∀ hj : j < (sortCompsDesc [({"a", "b"} : Finset String), {"c"}]).length, i ≠ j →
          ∀ v ∈ (sortCompsDesc [({"a", "b"} : Finset String), {"c"}]).get ⟨i, hi⟩,
            ∀ u ∈ (sortCompsDesc [({"a", "b"} : Finset String), {"c"}]).get ⟨j, hj⟩,
              dictLookup r.clustering v ≠ dictLookup r.clustering u :=
  printClusters_distinct_components_distinct_ids
    [({"a", "b"} : Finset String), {"c"}] (by decide)

theorem entryLe_trans : ∀ p q t : String × ClsId, entryLe p q = true →
    entryLe q t = true → entryLe p t = true :=
  fun p q t hpq hqt => charListLe_trans _ _ _ hpq hqt

theorem entryLe_total : ∀ p q : String × ClsId, entryLe p q = true ∨ entryLe q p = true :=
  fun p q => charListLe_total _ _

/-- Shape of the emitted cluster CSV: header row, then one
`name,str(id)` row per kept dict entry, in an order that is sorted by
the first character of the sample name, the kept entries being a
sub-permutation of the dict (all of it when `printRef`). -/
theorem emitCsv_spec (d : List (String × ClsId)) (oN : Finset String) (pr : Bool) :
    (emitCsv d oN pr).head? = some "Taxon,Cluster" ∧
      ∃ es : List (String × ClsId),
        (emitCsv d oN pr).tail = es.map (fun p => p.1 ++ "," ++ renderId p.2) ∧
        es.Pairwise (fun p q => firstCharLe p.1 q.1 = true) ∧
        es.Subperm d ∧
        (pr = true → List.Perm es d) := by
  constructor
  · rfl
  · refine ⟨(insSortBy entryLe d).filter (fun p => pr || decide (p.1 ∈ oN)),
      rfl, ?_, ?_, ?_⟩
    · have hs := insSortBy_pairwise entryLe entryLe_trans entryLe_total d
      exact List.Pairwise.sublist (List.filter_sublist _) hs
    · exact ((List.filter_sublist _).subperm).trans (insSortBy_perm entryLe d).subperm
    · intro hpr
      subst hpr
      have hfilter : (insSortBy entryLe d).filter (fun p => true || decide (p.1 ∈ oN)) =
          insSortBy entryLe d := by
        apply List.filter_eq_self.mpr
        intro a _
        simp
      rw [hfilter]
      exact insSortBy_perm entryLe d

/-- Every successful `printClusters` run writes its CSV through
`emitCsv` over the final clustering dict. -/
theorem printClusters_ok_csv (comps : List (Finset String))
    (oldLines : Option (List String)) (printRef : Bool) (r : PrintResult)
    (h : printClusters comps oldLines printRef = .ok r) :
    ∃ oN, r.csvLines = emitCsv r.clustering oN printRef := by
  simp only [printClusters] at h
  split at h
  · exact absurd h (by simp)
  · split at h
    · cases h
      exact ⟨∅, rfl⟩
    · split at h
      · exact absurd h (by simp)
      · split at h
        · exact absurd h (by simp)
        · cases h
          exact ⟨_, rfl⟩

/-- C8 (amended): the emitted cluster CSV has header `Taxon,Cluster`
and comma-separated rows, but the data rows are ordered by the FIRST
CHARACTER of the sample name only (`operator.itemgetter(0)` applied
to a string yields its first character), stably in dict insertion
order — not by the full lexicographic order on the sample name. -/
theorem printClusters_csv_format (comps : List (Finset String))
    (oldLines : Option (List String)) (printRef : Bool) (r : PrintResult)
    (h : printClusters comps oldLines printRef = .ok r) :
    r.csvLines.head? = some "Taxon,Cluster" ∧
      ∃ es : List (String × ClsId),
        r.csvLines.tail = es.map (fun p => p.1 ++ "," ++ renderId p.2) ∧
        es.Pairwise (fun p q => firstCharLe p.1 q.1 = true) ∧
        es.Subperm r.clustering ∧
        (printRef = true → List.Perm es r.clustering) := by
  obtain ⟨oN, hcsv⟩ := printClusters_ok_csv comps oldLines printRef r h
  rw [hcsv]
  exact emitCsv_spec r.clustering oN printRef

/-- Witness for the amended C8 at the single component `{a}`. -/
theorem printClusters_csv_format_witness :
    (PrintResult.mk [("a", ClsId.num 0)] [] ["Taxon,Cluster", "a,0"]).csvLines.head? =
        some "Taxon,Cluster" ∧
      ∃ es : List (String × ClsId),
        (PrintResult.mk [("a", ClsId.num 0)] [] ["Taxon,Cluster", "a,0"]).csvLines.tail =
          es.map (fun p => p.1 ++ "," ++ renderId p.2) ∧
        es.Pairwise (fun p q => firstCharLe p.1 q.1 = true) ∧
        es.Subperm (PrintResult.mk [("a", ClsId.num 0)] [] ["Taxon,Cluster", "a,0"]).clustering ∧
        (true = true → List.Perm es
          (PrintResult.mk [("a", ClsId.num 0)] [] ["Taxon,Cluster", "a,0"]).clustering) :=
  printClusters_csv_format [({"a"} : Finset String)] none true
    (PrintResult.mk [("a", ClsId.num 0)] [] ["Taxon,Cluster", "a,0"]) (by decide)

/-- C8 counterexample: with components `{ba, x}` and `{b}` the CSV
rows come out as `ba,0`, `b,1`, `x,0` — yet in the full lexicographic
string order the sample `"b"` strictly precedes `"ba"` (second and
third conjuncts).  The rows are therefore NOT sorted by the full
sample name: Python's `operator.itemgetter(0)` on a string returns
only its first character. -/
theorem printClusters_csv_not_lexicographic_counterexample :
    (printClusters [({"ba", "x"} : Finset String), {"b"}] none true).map
        PrintResult.csvLines = .ok ["Taxon,Cluster", "ba,0", "b,1", "x,0"] ∧
      charListLe "b".toList "ba".toList = true ∧
      charListLe "ba".toList "b".toList = false := by
  decide

/-! ## readClusters lemmas -/

theorem readClustersRows_failfast (acc : List (String × Finset String))
    (pre : List String) (bad : String) (post : List String)
    (hpre : ∀ l ∈ pre, (pySplitComma (pyRstrip l)).length = 2)
    (hbad : (pySplitComma (pyRstrip bad)).length ≠ 2) :
    readClustersRows acc (pre ++ bad :: post) =
      .error (.malformedRow (pySplitComma (pyRstrip bad)).length) := by
  induction pre generalizing acc with
  | nil =>
    simp only [List.nil_append]
    rcases hsplit : pySplitComma (pyRstrip bad) with _ | ⟨a, _ | ⟨b, _ | ⟨c, t⟩⟩⟩
    · simp [readClustersRows, hsplit]
    · simp [readClustersRows, hsplit]
    · rw [hsplit] at hbad
      simp at hbad
    · simp [readClustersRows, hsplit]
  | cons l pre' ih =>
    have hl : (pySplitComma (pyRstrip l)).length = 2 :=
      hpre l (List.mem_cons_self _ _)
    obtain ⟨a, b, hab⟩ := List.length_eq_two.mp hl
    have hstep : readClustersRows acc ((l :: pre') ++ bad :: post) =
        readClustersRows (clustersInsert acc b a) (pre' ++ bad :: post) := by
      simp [readClustersRows, hab]
    rw [hstep]
    exact ih _ (fun x hx => hpre x (List.mem_cons_of_mem _ hx))

theorem clustersInsert_mem (acc : List (String × Finset String))
    (cid' s' cid s : String) :
    (∃ p ∈ clustersInsert acc cid' s', p.1 = cid ∧ s ∈ p.2) ↔
      ((∃ p ∈ acc, p.1 = cid ∧ s ∈ p.2) ∨ (cid = cid' ∧ s = s')) := by
  by_cases hk : acc.any (fun p => p.1 == cid') = true
  · simp only [clustersInsert, hk, if_pos]
    constructor
    · rintro ⟨q, hq, hq1, hqs⟩
      obtain ⟨p, hp, hpq⟩ := List.mem_map.mp hq
      by_cases hpc : (p.1 == cid') = true
      · rw [if_pos hpc] at hpq
        rw [← hpq] at hq1 hqs
        rcases Finset.mem_insert.mp hqs with hs | hs
        · right
          refine ⟨?_, hs⟩
          rw [← hq1]
          exact eq_of_beq hpc
        · left
          exact ⟨p, hp, hq1, hs⟩
      · rw [if_neg hpc] at hpq
        rw [← hpq] at hq1 hqs
        left
        exact ⟨p, hp, hq1, hqs⟩
    · rintro (⟨p, hp, hp1, hps⟩ | ⟨hcid, hs⟩)
      · by_cases hpc : (p.1 == cid') = true
        · exact ⟨(p.1, insert s' p.2), List.mem_map.mpr ⟨p, hp, by rw [if_pos hpc]⟩,
            hp1, Finset.mem_insert_of_mem hps⟩
        · exact ⟨p, List.mem_map.mpr ⟨p, hp, by rw [if_neg hpc]⟩, hp1, hps⟩
      · obtain ⟨p, hp, hpc⟩ := List.any_eq_true.mp hk
        refine ⟨(p.1, insert s' p.2), List.mem_map.mpr ⟨p, hp, by rw [if_pos hpc]⟩, ?_, ?_⟩
        · rw [hcid]
          exact eq_of_beq hpc
        · rw [hs]
          exact Finset.mem_insert_self s' p.2
  · rw [clustersInsert, if_neg hk]
    constructor
    · rintro ⟨q, hq, hq1, hqs⟩
      rcases List.mem_append.mp hq with hq | hq
      · left
        exact ⟨q, hq, hq1, hqs⟩
      · right
        have hq' : q = (cid', {s'}) := by simpa using hq
        rw [hq'] at hq1 hqs
        exact ⟨hq1.symm, Finset.mem_singleton.mp hqs⟩
    · rintro (⟨p, hp, hp1, hps⟩ | ⟨hcid, hs⟩)
      · exact ⟨p, List.mem_append_left _ hp, hp1, hps⟩
      · refine ⟨(cid', {s'}), List.mem_append_right _ (by simp), hcid.symm, ?_⟩
        rw [hs]
        exact Finset.mem_singleton_self s'

theorem readClustersRows_ok (rows : List String) :
    ∀ acc, (∀ l ∈ rows, (pySplitComma (pyRstrip l)).length = 2) →
      ∃ m, readClustersRows acc rows = .ok m ∧
        ∀ cid s, (∃ p ∈ m, p.1 = cid ∧ s ∈ p.2) ↔
          ((∃ p ∈ acc, p.1 = cid ∧ s ∈ p.2) ∨
            ∃ l ∈ rows, pySplitComma (pyRstrip l) = [s, cid]) := by
  induction rows with
  | nil =>
    intro acc _
    exact ⟨acc, rfl, fun cid s => by simp⟩
  | cons l rest ih =>
    intro acc hall
    have hl := hall l (List.mem_cons_self _ _)
    obtain ⟨a, b, hab⟩ := List.length_eq_two.mp hl
    have hstep : readClustersRows acc (l :: rest) =
        readClustersRows (clustersInsert acc b a) rest := by
      simp [readClustersRows, hab]
    obtain ⟨m, hm, hmem⟩ := ih (clustersInsert acc b a)
      (fun x hx => hall x (List.mem_cons_of_mem _ hx))
    refine ⟨m, by rw [hstep]; exact hm, ?_⟩
    intro cid s
    rw [hmem cid s, clustersInsert_mem acc b a cid s]
    constructor
    · rintro ((hacc | ⟨hcid, hs⟩) | hrest)
      · exact Or.inl hacc
      · right
        refine ⟨l, List.mem_cons_self _ _, ?_⟩
        rw [hab, hcid, hs]
      · right
        obtain ⟨l', hl', hsp⟩ := hrest
        exact ⟨l', List.mem_cons_of_mem _ hl', hsp⟩
    · rintro (hacc | ⟨l', hl', hsp⟩)
      · exact Or.inl (Or.inl hacc)
      · rcases List.mem_cons.mp hl' with he | he
        · subst he
          rw [hab] at hsp
          have h1 : a = s := by injection hsp
          have h2 : b = cid := by
            have := hsp
            injection this with _ htail
            injection htail
          left
          right
          exact ⟨h2.symm, h1.symm⟩
        · right
          exact ⟨l', he, hsp⟩

/-- C9 (amended): `readClusters` fails fast on the first malformed row
(a row that does not split into exactly two comma-separated fields),
returning a `ValueError`-style parse error whose only payload is the
mismatched field count — the error does not name the offending line;
on well-formed input it returns the mapping sending each cluster id
to exactly the set of samples whose rows carry that id. -/
theorem readClusters_failfast_and_mapping (hdr : String) (rows : List String) :
    (∀ pre bad post, rows = pre ++ bad :: post →
      (∀ l ∈ pre, (pySplitComma (pyRstrip l)).length = 2) →
      (pySplitComma (pyRstrip bad)).length ≠ 2 →
      readClusters (hdr :: rows) =
        .error (.malformedRow (pySplitComma (pyRstrip bad)).length)) ∧
    ((∀ l ∈ rows, (pySplitComma (pyRstrip l)).length = 2) →
      ∃ m, readClusters (hdr :: rows) = .ok m ∧
        ∀ cid s, (∃ p ∈ m, p.1 = cid ∧ s ∈ p.2) ↔
          ∃ l ∈ rows, pySplitComma (pyRstrip l) = [s, cid]) := by
  constructor
  · intro pre bad post hrows hpre hbad
    show readClustersRows [] rows = _
    rw [hrows]
    exact readClustersRows_failfast [] pre bad post hpre hbad
  · intro hall
    obtain ⟨m, hm, hmem⟩ := readClustersRows_ok rows [] hall
    refine ⟨m, hm, fun cid s => ?_⟩
    rw [hmem cid s]
    simp

/-- Witness for the amended C9: the file `Taxon,Cluster / s,1 / a,b,c`
fails with the three-field unpack error; the file `Taxon,Cluster /
s,1` parses into a mapping characterised by its rows. -/
theorem readClusters_failfast_and_mapping_witness :
    readClusters ["Taxon,Cluster", "s,1", "a,b,c"] = .error (.malformedRow 3) ∧
      ∃ m, readClusters ["Taxon,Cluster", "s,1"] = .ok m ∧
        ∀ cid s, (∃ p ∈ m, p.1 = cid ∧ s ∈ p.2) ↔
          ∃ l ∈ ["s,1"], pySplitComma (pyRstrip l) = [s, cid] := by
  constructor
  · have h := (readClusters_failfast_and_mapping "Taxon,Cluster" ["s,1", "a,b,c"]).1
      ["s,1"] "a,b,c" [] rfl (by decide) (by decide)
    rw [h]
    decide
  · exact (readClusters_failfast_and_mapping "Taxon,Cluster" ["s,1"]).2 (by decide)

/-- C9 counterexample: two files whose malformed rows are different
lines (`a,b,c` versus `x,y,z`) produce EQUAL parse errors — the
unpack `ValueError` carries only the field count, so the parse error
does not identify the offending line. -/
theorem readClusters_error_not_naming_line_counterexample :
    readClusters ["Taxon,Cluster", "a,b,c"] = .error (.malformedRow 3) ∧
      readClusters ["Taxon,Cluster", "x,y,z"] = .error (.malformedRow 3) ∧
      "a,b,c" ≠ "x,y,z" := by
  decide

/-! ## extractReferences lemmas -/

theorem pairwise_of_nodup_forall {R : α → α → Prop} :
    ∀ {l : List α}, l.Nodup → (∀ x ∈ l, ∀ y ∈ l, x ≠ y → R x y) → l.Pairwise R := by
  intro l
  induction l with
  | nil =>
    intro _ _
    exact List.Pairwise.nil
  | cons a t ih =>
    intro hnd hf
    rw [List.nodup_cons] at hnd
    refine List.Pairwise.cons ?_ (ih hnd.2 ?_)
    · intro b hb
      exact hf a (List.mem_cons_self _ _) b (List.mem_cons_of_mem _ hb)
        (fun he => hnd.1 (he ▸ hb))
    · intro x hx y hy hxy
      exact hf x (List.mem_cons_of_mem _ hx) y (List.mem_cons_of_mem _ hy) hxy

/-- Every maximal clique has a canonical representative (same node
set) in the deterministic clique enumeration. -/
theorem maxClique_canonical (G : Graph) (c : List String)
    (hc : isMaxCliqueList G c) :
    ∃ c', c' ∈ findCliquesModel G ∧ c' ≠ [] ∧ ∀ x, x ∈ c' ↔ x ∈ c := by
  obtain ⟨hne, hpw, hmem, hmax⟩ := hc
  have hmemc' : ∀ x, x ∈ G.nodes.dedup.filter (fun v => decide (v ∈ c)) ↔ x ∈ c := by
    intro x
    rw [List.mem_filter]
    constructor
    · rintro ⟨_, hx⟩
      exact of_decide_eq_true hx
    · intro hx
      exact ⟨List.mem_dedup.mpr (hmem x hx), decide_eq_true hx⟩
  have hc'nodup : (G.nodes.dedup.filter (fun v => decide (v ∈ c))).Nodup :=
    List.Nodup.filter _ (List.nodup_dedup _)
  have hc'ne : G.nodes.dedup.filter (fun v => decide (v ∈ c)) ≠ [] := by
    obtain ⟨x, hx⟩ := List.exists_mem_of_ne_nil c hne
    exact List.ne_nil_of_mem ((hmemc' x).mpr hx)
  have hc'max : isMaxCliqueList G (G.nodes.dedup.filter (fun v => decide (v ∈ c))) := by
    refine ⟨hc'ne, ?_, ?_, ?_⟩
    · apply pairwise_of_nodup_forall hc'nodup
      intro x hx y hy hxy
      exact pairwise_forall_ne (fun a b h => Or.symm h) hpw
        x ((hmemc' x).mp hx) y ((hmemc' y).mp hy) hxy
    · intro v hv
      exact hmem v ((hmemc' v).mp hv)
    · intro v hvnodes hvnot hall
      apply hmax v hvnodes (fun hvc => hvnot ((hmemc' v).mpr hvc))
      intro u hu
      exact hall u ((hmemc' u).mpr hu)
  refine ⟨_, ?_, hc'ne, hmemc'⟩
  rw [findCliquesModel, List.mem_filter]
  exact ⟨List.mem_sublists.mpr (List.filter_sublist _), decide_eq_true hc'max⟩

theorem chooseRefs_subset :
    ∀ (cs : List (List String)) (refs : List String) (x : String),
      x ∈ refs → x ∈ chooseRefs cs refs := by
  intro cs
  induction cs with
  | nil =>
    intro refs x hx
    exact hx
  | cons c rest ih =>
    intro refs x hx
    simp only [chooseRefs]
    by_cases h : c.any (fun n => refs.contains n) = true
    · rw [if_pos h]
      exact ih refs x hx
    · rw [if_neg h]
      exact ih _ x (List.mem_append_left _ hx)

theorem chooseRefs_covers :
    ∀ (cs : List (List String)) (refs : List String) (c : List String),
      c ∈ cs → c ≠ [] → ∃ r ∈ chooseRefs cs refs, r ∈ c := by
  intro cs
  induction cs with
  | nil =>
    intro refs c hc
    exact absurd hc (List.not_mem_nil c)
  | cons hd rest ih =>
    intro refs c hc hcne
    rcases List.mem_cons.mp hc with he | he
    · subst he
      simp only [chooseRefs]
      by_cases h : c.any (fun n => refs.contains n) = true
      · rw [if_pos h]
        obtain ⟨n, hn, hnc⟩ := List.any_eq_true.mp h
        have hnrefs : n ∈ refs := by simpa using hnc
        exact ⟨n, chooseRefs_subset rest refs n hnrefs, hn⟩
      · rw [if_neg h]
        match c, hcne with
        | x :: xs, _ =>
          refine ⟨x, chooseRefs_subset rest _ x ?_, List.mem_cons_self _ _⟩
          simp [List.take]
    · simp only [chooseRefs]
      by_cases h : hd.any (fun n => refs.contains n) = true
      · rw [if_pos h]
        exact ih refs c he hcne
      · rw [if_neg h]
        exact ih _ c he hcne

/-- C7: `extractReferences` is deterministic — it is a pure function
of the graph, so equal networks yield equal reference lists — and
every maximal clique of the network contains at least one member of
the returned reference list (the greedy scan either finds the clique
already represented or appends its first node, and the reference list
only ever grows). -/
theorem extractReferences_deterministic_and_covers (G : Graph) (c : List String)
    (hc : isMaxCliqueList G c) :
    (∀ G', G = G' → extractReferences G = extractReferences G') ∧
      ∃ r ∈ extractReferences G, r ∈ c := by
  constructor
  · intro G' h
    rw [h]
  · obtain ⟨c', hc'mem, hc'ne, hmemiff⟩ := maxClique_canonical G c hc
    have hsortmem : c' ∈ insSortBy (fun a b => decide (b.length ≤ a.length))
        (findCliquesModel G) :=
      (insSortBy_perm _ _).mem_iff.mpr hc'mem
    obtain ⟨r, hr, hrc'⟩ := chooseRefs_covers _ [] c' hsortmem hc'ne
    exact ⟨r, hr, (hmemiff r).mp hrc'⟩

/-- Witness for C7 on the path graph `a - b - c`: `["a", "b"]` is a
maximal clique and contains a returned reference. -/
theorem extractReferences_deterministic_and_covers_witness :
    isMaxCliqueList (Graph.mk ["a", "b", "c"] [("a", "b"), ("b", "c")]) ["a", "b"] ∧
      ∃ r ∈ extractReferences (Graph.mk ["a", "b", "c"] [("a", "b"), ("b", "c")]),
        r ∈ ["a", "b"] :=
  ⟨by decide,
    (extractReferences_deterministic_and_covers
      (Graph.mk ["a", "b", "c"] [("a", "b"), ("b", "c")]) ["a", "b"] (by decide)).2⟩
